import Mathlib

/-!
# Verification of the pythrottle interval clock, call limiter and rate meter

Shallow embedding of `pythrottle/throttle.py` and `pythrottle/rate_meter.py`.
Time is modelled explicitly: every operation that reads the monotonic clock
(`perf_counter()`) takes the current time `now : ℚ` as a parameter, and
stateful methods return the updated object.  Sleeping is modelled by
returning the duration slept.
-/

namespace Pythrottle

/-- State of a `Throttle` instance (`throttle.py`): the fixed `interval`,
the optional time reference `t_start` (`None` until first use) and the
tick counter `ticks`. -/
structure Throttle where
  interval : ℚ
  t_start : Option ℚ
  ticks : ℕ
  deriving DecidableEq, Repr

/-- Embeds `Throttle.restart`: `self.t_start = None; self.ticks = 0`. -/
def Throttle.restart (t : Throttle) : Throttle :=
  { t with t_start := none, ticks := 0 }

/-- Embeds `Throttle.__init__(interval)`: sets `interval`, `t_start = None`,
`ticks = 0`, then calls `restart()`. -/
def Throttle.init (interval : ℚ) : Throttle :=
  Throttle.restart { interval := interval, t_start := none, ticks := 0 }

/-- Embeds `Throttle._check`: if `t_start is None`, call `restart()` and set
`t_start = perf_counter()`. -/
def Throttle.check (t : Throttle) (now : ℚ) : Throttle :=
  if t.t_start = none then { t.restart with t_start := some now } else t

/-- Embeds `Throttle.elapsed(auto_reset, exact)`: returns whether the interval has
elapsed, and the updated state.  `ret = (perf_counter() - self.t_start >=
self.interval)`; if `ret and auto_reset` the tick counter is incremented and
`t_start` is advanced by `interval` (`exact`) or snapped to `now`. -/
def Throttle.elapsed (t : Throttle) (now : ℚ) (auto_reset exact : Bool) :
    Bool × Throttle :=
  let t1 := t.check now
  let ts := t1.t_start.getD now
  let ret : Bool := decide (now - ts ≥ t1.interval)
  if ret && auto_reset then
    if exact then
      (ret, { t1 with ticks := t1.ticks + 1, t_start := some (ts + t1.interval) })
    else
      (ret, { t1 with ticks := t1.ticks + 1, t_start := some now })
  else
    (ret, t1)

/-- Embeds `Throttle.wait_next()`: `t_target = t_start + interval`;
`t_start += interval`; `sleep_time = t_target - perf_counter()`;
`if sleep_time > 0: sleep(sleep_time)`; `ticks += 1`.
Returns the duration slept and the updated state. -/
def Throttle.wait_next (t : Throttle) (now : ℚ) : ℚ × Throttle :=
  let t1 := t.check now
  let ts := t1.t_start.getD now
  let t_target := ts + t1.interval
  let sleep_time := t_target - now
  (if sleep_time > 0 then sleep_time else 0,
   { t1 with t_start := some (ts + t1.interval), ticks := t1.ticks + 1 })

/-- Embeds `Throttle.await_next()`: same arithmetic as `wait_next`, but the wait is
`await asyncio.sleep(t_target - perf_counter())`; `asyncio.sleep` treats a
non-positive delay as a zero-length wait, so the effective wait is
`max 0 (t_target - now)`. -/
def Throttle.await_next (t : Throttle) (now : ℚ) : ℚ × Throttle :=
  let t1 := t.check now
  let ts := t1.t_start.getD now
  let t_target := ts + t1.interval
  (max 0 (t_target - now),
   { t1 with t_start := some (ts + t1.interval), ticks := t1.ticks + 1 })

/-- Embeds `Throttle._check_loop_params(duration, max_ticks)`: raises `ValueError`
when both are set, then calls `_check()`, then converts `duration` to
`ceil(duration / interval)`.  The error carries the original (unmutated)
state, since the raise happens before `_check()`. -/
def Throttle.check_loop_params (t : Throttle) (duration : Option ℚ)
    (max_ticks : Option ℤ) (now : ℚ) : Except String (Option ℤ) × Throttle :=
  if max_ticks.isSome && duration.isSome then
    (Except.error "max_ticks and duration cannot be set atthe same time", t)
  else
    let t1 := t.check now
    match duration with
    | some d => (Except.ok (some ⌈d / t.interval⌉), t1)
    | none => (Except.ok max_ticks, t1)

/-- First retrieval from the generator returned by `Throttle.loop`:
parameter validation, then (if the loop condition holds) one `wait_next`
and the first yielded value `0`.  `Except.ok none` models immediate
`StopIteration`. -/
def Throttle.loop_first (t : Throttle) (max_ticks : Option ℤ)
    (duration : Option ℚ) (now : ℚ) :
    Except String (Option (ℤ × ℚ)) × Throttle :=
  match t.check_loop_params duration max_ticks now with
  | (Except.error e, t1) => (Except.error e, t1)
  | (Except.ok mt, t1) =>
    let go : Bool := match mt with
      | none => true
      | some m => decide (0 < m)
    if go then
      let (slp, t2) := t1.wait_next now
      (Except.ok (some (0, slp)), t2)
    else
      (Except.ok none, t1)

/-- First retrieval from the asynchronous generator `Throttle.aloop`: same
as `loop_first` but waiting through `await_next`. -/
def Throttle.aloop_first (t : Throttle) (max_ticks : Option ℤ)
    (duration : Option ℚ) (now : ℚ) :
    Except String (Option (ℤ × ℚ)) × Throttle :=
  match t.check_loop_params duration max_ticks now with
  | (Except.error e, t1) => (Except.error e, t1)
  | (Except.ok mt, t1) =>
    let go : Bool := match mt with
      | none => true
      | some m => decide (0 < m)
    if go then
      let (slp, t2) := t1.await_next now
      (Except.ok (some (0, slp)), t2)
    else
      (Except.ok none, t1)

/-- C1: for a `Throttle` with positive interval and initialized reference
time, `elapsed` returns true iff `now - reference_time ≥ interval`; on true
with `auto_reset`, ticks is incremented by 1 and the reference advances by
exactly one interval (`exact`) or snaps to `now` (not `exact`); on false the
state is unchanged. -/
theorem elapsed_spec (t : Throttle) (now r : ℚ) (auto_reset exact : Bool)
    (hpos : 0 < t.interval) (href : t.t_start = some r) :
    ((t.elapsed now auto_reset exact).1 = true ↔ now - r ≥ t.interval) ∧
    ((t.elapsed now true true).1 = true →
      (t.elapsed now true true).2 =
        { t with t_start := some (r + t.interval), ticks := t.ticks + 1 }) ∧
    ((t.elapsed now true false).1 = true →
      (t.elapsed now true false).2 =
        { t with t_start := some now, ticks := t.ticks + 1 }) ∧
    ((t.elapsed now auto_reset exact).1 = false →
      (t.elapsed now auto_reset exact).2 = t) := by
  have hcheck : t.check now = t := by
    simp [Throttle.check, href]
  constructor
  · simp only [Throttle.elapsed, hcheck, href, Option.getD_some]
    by_cases h : now - r ≥ t.interval <;> simp [h] <;> cases auto_reset <;>
      cases exact <;> simp
  constructor
  · intro h
    simp only [Throttle.elapsed, hcheck, href, Option.getD_some] at h ⊢
    by_cases hge : now - r ≥ t.interval
    · simp [hge]
    · simp [hge] at h
  constructor
  · intro h
    simp only [Throttle.elapsed, hcheck, href, Option.getD_some] at h ⊢
    by_cases hge : now - r ≥ t.interval
    · simp [hge]
    · simp [hge] at h
  · intro h
    simp only [Throttle.elapsed, hcheck, href, Option.getD_some] at h ⊢
    by_cases hge : now - r ≥ t.interval
    · simp [hge] at h ⊢
      cases auto_reset <;> cases exact <;> simp_all
    · simp [hge]

/-- Witness for `elapsed_spec` at a concrete initialized clock. -/
theorem elapsed_spec_witness :
    ((⟨1, some 2, 5⟩ : Throttle).elapsed 4 true true).1 = true :=
  ((elapsed_spec ⟨1, some 2, 5⟩ 4 2 true true (by norm_num) rfl).1).mpr (by norm_num)

/-- C2: `wait_next` and `await_next` compute `target = reference_time +
interval` (after lazy initialization), unconditionally advance the reference
by exactly one interval, wait `max 0 (target - now)` (zero-length when the
target is in the past), and unconditionally increment the tick count by 1. -/
theorem wait_next_spec (t : Throttle) (now : ℚ) :
    (t.wait_next now).1 =
      max 0 ((t.check now).t_start.getD 0 + t.interval - now) ∧
    (t.wait_next now).2.t_start =
      some ((t.check now).t_start.getD 0 + t.interval) ∧
    (t.wait_next now).2.ticks = (t.check now).ticks + 1 ∧
    (t.wait_next now).2.interval = t.interval ∧
    t.await_next now = t.wait_next now := by
  have hmax : ∀ a b : ℚ, (if b < a then a - b else 0) = max 0 (a - b) := by
    intro a b
    rcases le_or_lt a b with h | h
    · rw [if_neg (not_lt.mpr h), max_eq_left (by linarith)]
    · rw [if_pos h, max_eq_right (by linarith)]
  have hmax0 : ∀ x : ℚ, (if 0 < x then x else 0) = max 0 x := by
    intro x
    rcases le_or_lt x 0 with h | h
    · rw [if_neg (not_lt.mpr h), max_eq_left h]
    · rw [if_pos h, max_eq_right h.le]
  cases ht : t.t_start with
  | none =>
    have hcheck : t.check now = { t.restart with t_start := some now } := by
      simp [Throttle.check, ht]
    simp [Throttle.wait_next, Throttle.await_next, hcheck, Throttle.restart,
      hmax, hmax0]
  | some r =>
    have hcheck : t.check now = t := by simp [Throttle.check, ht]
    simp [Throttle.wait_next, Throttle.await_next, hcheck, ht, hmax]

/-- C6: requesting `loop` (or `aloop`) with both `max_ticks` and `duration`
fails with `ValueError` on the first retrieval, before any element is
yielded, before lazy initialization, leaving the state unchanged. -/
theorem loop_both_params_error (t : Throttle) (m : ℤ) (d : ℚ) (now : ℚ) :
    t.loop_first (some m) (some d) now =
      (Except.error "max_ticks and duration cannot be set atthe same time", t) ∧
    t.aloop_first (some m) (some d) now =
      (Except.error "max_ticks and duration cannot be set atthe same time", t) := by
  constructor <;>
    simp [Throttle.loop_first, Throttle.aloop_first, Throttle.check_loop_params]

/-- C7 counterexample: on a freshly constructed `Throttle` (uninitialized
reference time), `elapsed(auto_reset=False)` does change the state — the
lazy initialization sets `t_start` to `now`. -/
theorem elapsed_no_reset_mutates_fresh :
    ((Throttle.init 1).elapsed 0 false true).2 ≠ Throttle.init 1 := by
  simp [Throttle.init, Throttle.restart, Throttle.elapsed, Throttle.check]

/-- C7 (amended): for a `Throttle` whose reference time is already
initialized, `elapsed(auto_reset=False, exact)` leaves the state unchanged
regardless of the check result (pure poll). -/
theorem elapsed_no_reset_pure (t : Throttle) (now r : ℚ) (exact : Bool)
    (href : t.t_start = some r) :
    (t.elapsed now false exact).2 = t := by
  have hcheck : t.check now = t := by simp [Throttle.check, href]
  simp only [Throttle.elapsed, hcheck, href, Option.getD_some]
  by_cases hge : now - r ≥ t.interval <;> simp [hge]

/-- Witness for `elapsed_no_reset_pure` on a concrete initialized clock. -/
theorem elapsed_no_reset_pure_witness :
    (⟨1, some 2, 5⟩ : Throttle).t_start = some 2 ∧
    ((⟨1, some 2, 5⟩ : Throttle).elapsed 100 false true).2 = ⟨1, some 2, 5⟩ :=
  ⟨rfl, elapsed_no_reset_pure ⟨1, some 2, 5⟩ 100 2 true rfl⟩

/-- C9: `restart()` produces exactly the state of a freshly constructed
`Throttle` with the same interval, so any following read-only operation
behaves as on a fresh instance; `restart` is idempotent. -/
theorem restart_spec (t : Throttle) :
    t.restart = Throttle.init t.interval ∧
    t.restart.restart = t.restart ∧
    (∀ (now : ℚ) (ar ex : Bool),
      t.restart.elapsed now ar ex = (Throttle.init t.interval).elapsed now ar ex) := by
  refine ⟨rfl, rfl, fun now ar ex => rfl⟩

/-! ## Call-rate limiter (`throttle` / `athrottle` decorators) -/

/-- The `on_fail` argument: a literal value, a plain function, or a
coroutine function (`async def`), as distinguished by
`callable` / `inspect.isfunction` / `inspect.iscoroutinefunction`. -/
inductive OnFail (α : Type) where
  | literal (v : α)
  | syncThunk (f : Unit → α)
  | asyncThunk (f : Unit → α)

/-- Fallback production in the synchronous `wrapper`:
`return on_fail() if callable(on_fail) else on_fail`
(`callable` is true for both kinds of function). -/
def OnFail.resolveSync : OnFail α → α
  | .literal v => v
  | .syncThunk f => f ()
  | .asyncThunk f => f ()

/-- Fallback production in the asynchronous `awrapper`:
`if iscoroutinefunction(on_fail): return await on_fail()`
`elif isfunction(on_fail): return on_fail()`
`else: return on_fail`. -/
def OnFail.resolveAsync : OnFail α → α
  | .asyncThunk f => f ()
  | .syncThunk f => f ()
  | .literal v => v

/-- Shared mutable state captured by a `throttle`/`athrottle` decorator:
the `call_counter` closure variable and the owned `Throttle` instance. -/
structure LimiterState where
  call_counter : ℕ
  thr : Throttle
  deriving DecidableEq, Repr

/-- Fresh decorator state: `call_counter = 0`, `throttle_ = Throttle(interval)`. -/
def LimiterState.init (interval : ℚ) : LimiterState :=
  ⟨0, Throttle.init interval⟩

/-- Observable outcome of one call to a wrapped function: whether the
wrapped callable was invoked, the value returned to the caller, and the
duration slept (0 when no wait occurred). -/
structure StepResult (α : Type) where
  invoked : Bool
  ret : α
  slept : ℚ
  deriving DecidableEq, Repr

/-- One call of the synchronous `wrapper` produced by
`throttle(limit, interval, wait, on_fail)`: increment `call_counter`; if
`throttle_.elapsed()` reset the counter to 1; else if over the limit either
wait (`wait=True`) or return the fallback; finally invoke `func`. -/
def wrapperStep (limit : ℕ) (wait : Bool) (on_fail : OnFail α) (func : α)
    (s : LimiterState) (now : ℚ) : StepResult α × LimiterState :=
  let cc := s.call_counter + 1
  let (e, thr1) := s.thr.elapsed now true true
  if e then
    (⟨true, func, 0⟩, ⟨1, thr1⟩)
  else if cc > limit then
    if wait then
      let (slp, thr2) := thr1.wait_next now
      (⟨true, func, slp⟩, ⟨1, thr2⟩)
    else
      (⟨false, on_fail.resolveSync, 0⟩, ⟨cc, thr1⟩)
  else
    (⟨true, func, 0⟩, ⟨cc, thr1⟩)

/-- One call of the asynchronous `awrapper` produced by
`athrottle(limit, interval, wait, on_fail)`.  In this pure embedding
awaiting a value and having it are the same, so invoking `func` covers both
the coroutine and the plain-function branch of `awrapper`. -/
def awrapperStep (limit : ℕ) (wait : Bool) (on_fail : OnFail α) (func : α)
    (s : LimiterState) (now : ℚ) : StepResult α × LimiterState :=
  let cc := s.call_counter + 1
  let (e, thr1) := s.thr.elapsed now true true
  if e then
    (⟨true, func, 0⟩, ⟨1, thr1⟩)
  else if cc > limit then
    if wait then
      let (slp, thr2) := thr1.await_next now
      (⟨true, func, slp⟩, ⟨1, thr2⟩)
    else
      (⟨false, on_fail.resolveAsync, 0⟩, ⟨cc, thr1⟩)
  else
    (⟨true, func, 0⟩, ⟨cc, thr1⟩)

/-- A sequence of calls to the synchronous wrapped function at the given
times; returns the per-call outcomes and the final decorator state. -/
def runCalls (limit : ℕ) (wait : Bool) (on_fail : OnFail α) (func : α) :
    LimiterState → List ℚ → List (StepResult α) × LimiterState
  | s, [] => ([], s)
  | s, now :: rest =>
    let (r, s1) := wrapperStep limit wait on_fail func s now
    let (rs, s2) := runCalls limit wait on_fail func s1 rest
    (r :: rs, s2)

/-- Auxiliary: a run of calls, all strictly before the interval boundary of
an already-initialized clock, invokes the callable exactly while the
counter stays at or below the limit, and never touches the clock state. -/
theorem runCalls_within_interval {α : Type} (limit : ℕ) (on_fail : OnFail α)
    (func : α) (t0 : ℚ) (tk : ℕ) (I : ℚ) :
    ∀ (ts : List ℚ) (k : ℕ), (∀ u ∈ ts, u - t0 < I) →
      runCalls limit false on_fail func ⟨k, ⟨I, some t0, tk⟩⟩ ts =
        ((List.range ts.length).map (fun j =>
            if k + j + 1 ≤ limit then ⟨true, func, 0⟩
            else ⟨false, on_fail.resolveSync, 0⟩),
         ⟨k + ts.length, ⟨I, some t0, tk⟩⟩) := by
  intro ts
  induction ts with
  | nil => intro k _; simp [runCalls]
  | cons u rest ih =>
    intro k hu
    have hstep : wrapperStep limit false on_fail func ⟨k, ⟨I, some t0, tk⟩⟩ u =
        (if k + 1 ≤ limit then ⟨true, func, 0⟩
         else ⟨false, on_fail.resolveSync, 0⟩, ⟨k + 1, ⟨I, some t0, tk⟩⟩) := by
      have helapsed : (Throttle.elapsed ⟨I, some t0, tk⟩ u true true) =
          (false, ⟨I, some t0, tk⟩) := by
        have hnot : ¬ (u - t0 ≥ I) := not_le.mpr (hu u (List.mem_cons_self u rest))
        simp [Throttle.elapsed, Throttle.check, hnot]
      rcases le_or_lt (k + 1) limit with h | h
      · simp [wrapperStep, helapsed, Nat.not_lt.mpr h, h]
      · simp [wrapperStep, helapsed, h, Nat.not_le.mpr h]
    have hrest : ∀ u' ∈ rest, u' - t0 < I := fun u' hm => hu u' (List.mem_cons_of_mem u hm)
    have htail : List.map (fun j =>
          if k + 1 + j + 1 ≤ limit then (⟨true, func, 0⟩ : StepResult α)
          else ⟨false, on_fail.resolveSync, 0⟩) (List.range rest.length) =
        List.map ((fun j =>
          if k + j + 1 ≤ limit then (⟨true, func, 0⟩ : StepResult α)
          else ⟨false, on_fail.resolveSync, 0⟩) ∘ Nat.succ) (List.range rest.length) := by
      apply List.map_congr_left
      intro j _
      simp only [Function.comp, Nat.succ_eq_add_one]
      by_cases hj : k + (j + 1) + 1 ≤ limit
      · rw [if_pos (show k + 1 + j + 1 ≤ limit by omega), if_pos hj]
      · rw [if_neg (show ¬ k + 1 + j + 1 ≤ limit by omega), if_neg hj]
    simp only [runCalls, hstep, ih (k + 1) hrest]
    rw [List.length_cons, List.range_succ_eq_map, List.map_cons, Prod.mk.injEq]
    have hcc : k + 1 + rest.length = k + (rest.length + 1) := by omega
    refine ⟨?_, by rw [hcc]⟩
    rw [List.map_map, ← htail]

/-- C3: with `wait = False` and positive `limit`, for any sequence of calls
all within the first interval of a fresh limiter (no boundary crossed),
exactly the first `limit` calls invoke the wrapped callable and return its
result, and every later call returns the fallback without invoking it;
moreover whenever a call observes `elapsed()` true, the counter is reset to
1 and the callable is invoked. -/
theorem limiter_counting {α : Type} (limit : ℕ) (on_fail : OnFail α)
    (func : α) (I t0 : ℚ) (rest : List ℚ)
    (hI : 0 < I) (hlim : 1 ≤ limit) (hrest : ∀ u ∈ rest, u < t0 + I) :
    (runCalls limit false on_fail func (LimiterState.init I) (t0 :: rest)).1 =
      (List.range (rest.length + 1)).map (fun j =>
        if j < limit then ⟨true, func, 0⟩
        else ⟨false, on_fail.resolveSync, 0⟩) ∧
    (∀ (s : LimiterState) (now : ℚ),
      (s.thr.elapsed now true true).1 = true →
        wrapperStep limit false on_fail func s now =
          (⟨true, func, 0⟩, ⟨1, (s.thr.elapsed now true true).2⟩)) := by
  constructor
  · have hstep0 : wrapperStep limit false on_fail func (LimiterState.init I) t0 =
        (⟨true, func, 0⟩, ⟨1, ⟨I, some t0, 0⟩⟩) := by
      have helapsed : (Throttle.init I).elapsed t0 true true =
          (false, ⟨I, some t0, 0⟩) := by
        have hnot : ¬ (I ≤ 0) := not_le.mpr hI
        simp [Throttle.elapsed, Throttle.check, Throttle.init,
          Throttle.restart, hnot]
      have h1 : ¬ ((LimiterState.init I).call_counter + 1 > limit) := by
        simp [LimiterState.init]
        omega
      simp [wrapperStep, LimiterState.init, helapsed] at h1 ⊢
      omega
    have hrest' : ∀ u ∈ rest, u - t0 < I := by
      intro u hm
      have := hrest u hm
      linarith
    simp only [runCalls, hstep0,
      runCalls_within_interval limit on_fail func t0 0 I rest 1 hrest']
    rw [List.range_succ_eq_map, List.map_cons]
    congr 1
    · rw [if_pos (show 0 < limit by omega)]
    · rw [List.map_map]
      apply List.map_congr_left
      intro j _
      simp only [Function.comp, Nat.succ_eq_add_one]
      by_cases hj : j + 1 < limit
      · rw [if_pos (show 1 + j + 1 ≤ limit by omega), if_pos hj]
      · rw [if_neg (show ¬ 1 + j + 1 ≤ limit by omega), if_neg hj]
  · intro s now he
    rcases hE : s.thr.elapsed now true true with ⟨e, thr1⟩
    rw [hE] at he
    simp at he
    subst he
    simp [wrapperStep, hE]

/-- Witness for `limiter_counting`: limit 1, interval 1, calls at 0 and 1/2;
the first call invokes the function, the second returns the fallback. -/
theorem limiter_counting_witness :
    (runCalls 1 false (OnFail.literal 3) 7 (LimiterState.init 1)
        (0 :: [1 / 2])).1 =
      (List.range (List.length [(1 : ℚ) / 2] + 1)).map (fun j =>
        if j < 1 then ⟨true, 7, 0⟩
        else ⟨false, (OnFail.literal 3).resolveSync, 0⟩) :=
  (limiter_counting 1 (OnFail.literal 3) 7 1 0 [1 / 2] (by norm_num)
    (le_refl 1)
    (by
      intro u hu
      rw [List.mem_singleton] at hu
      subst hu
      norm_num)).1

/-- C8: with `wait = False`, when the check finds no boundary crossed and
the counter exceeds the limit, the wrapped callable is not invoked and the
fallback is produced: a callable `on_fail` is called (awaited in `awrapper`
when it is a coroutine function) and its result returned; otherwise
`on_fail` is returned as a literal value. -/
theorem limit_exceeded_fallback {α : Type} (limit : ℕ) (on_fail : OnFail α)
    (func : α) (s : LimiterState) (now : ℚ)
    (h1 : (s.thr.elapsed now true true).1 = false)
    (h2 : limit < s.call_counter + 1) :
    wrapperStep limit false on_fail func s now =
      (⟨false, on_fail.resolveSync, 0⟩,
       ⟨s.call_counter + 1, (s.thr.elapsed now true true).2⟩) ∧
    awrapperStep limit false on_fail func s now =
      (⟨false, on_fail.resolveAsync, 0⟩,
       ⟨s.call_counter + 1, (s.thr.elapsed now true true).2⟩) ∧
    (∀ v : α, (OnFail.literal v).resolveSync = v ∧
      (OnFail.literal v).resolveAsync = v) ∧
    (∀ f : Unit → α, (OnFail.syncThunk f).resolveSync = f () ∧
      (OnFail.syncThunk f).resolveAsync = f () ∧
      (OnFail.asyncThunk f).resolveSync = f () ∧
      (OnFail.asyncThunk f).resolveAsync = f ()) := by
  rcases hE : s.thr.elapsed now true true with ⟨e, thr1⟩
  rw [hE] at h1
  simp only at h1
  subst h1
  refine ⟨?_, ?_, fun v => ⟨rfl, rfl⟩, fun f => ⟨rfl, rfl, rfl, rfl⟩⟩
  · simp [wrapperStep, hE, h2]
  · simp [awrapperStep, hE, h2]

/-- Witness for `limit_exceeded_fallback`: counter 2, limit 1, no boundary
crossed; the call returns the literal fallback 3 without invoking `func`. -/
theorem limit_exceeded_fallback_witness :
    wrapperStep 1 false (OnFail.literal 3) 7 ⟨2, ⟨1, some 0, 0⟩⟩ (1 / 2) =
      (⟨false, (OnFail.literal 3).resolveSync, 0⟩,
       ⟨2 + 1, ((⟨1, some 0, 0⟩ : Throttle).elapsed (1 / 2) true true).2⟩) :=
  (limit_exceeded_fallback 1 (OnFail.literal 3) 7 ⟨2, ⟨1, some 0, 0⟩⟩ (1 / 2)
    (by
      simp [Throttle.elapsed, Throttle.check]
      norm_num)
    (by norm_num)).1

/-! ## Sliding-window rate meter (`rate_meter.py`) -/

/-- Loop body of `bisect.bisect_left(a, x)` with explicit fuel; the loop
runs at most `hi - lo` times, so fuel `a.length` suffices for the initial
call `lo = 0`, `hi = a.length`. -/
def bisectLeftAux (a : List ℚ) (x : ℚ) : ℕ → ℕ → ℕ → ℕ
  | 0, lo, _ => lo
  | fuel + 1, lo, hi =>
    if lo < hi then
      let mid := (lo + hi) / 2
      if a.getD mid 0 < x then bisectLeftAux a x fuel (mid + 1) hi
      else bisectLeftAux a x fuel lo mid
    else lo

/-- Embeds `bisect.bisect_left(a, x)`: insertion point for `x` in `a`. -/
def bisect_left (a : List ℚ) (x : ℚ) : ℕ :=
  bisectLeftAux a x a.length 0 a.length

/-- State of a `RateMeter` instance: the parallel deques `_times` and
`_iters` (modelled as lists, `append` on the right, `popleft` as `drop`
on the left) and the measurement `interval` (the window). -/
structure RateMeter where
  times : List ℚ
  iters : List ℚ
  interval : ℚ
  deriving DecidableEq, Repr

/-- Embeds `RateMeter.__init__(interval)`: empty deques. -/
def RateMeter.init (interval : ℚ) : RateMeter := ⟨[], [], interval⟩

/-- Embeds `RateMeter.restart()`: clears both deques. -/
def RateMeter.restart (m : RateMeter) : RateMeter :=
  { m with times := [], iters := [] }

/-- Embeds `RateMeter._remove_past_items()`: `first_time_value = _times[-1] -
interval`; `first_time_index = bisect_left(_times, first_time_value)`,
decremented when no stored time equals `first_time_value`; then
`first_time_index` elements are popped from the left of both deques
(`range` of a negative number is empty, hence `Int.toNat`).  The only
caller has just appended, so `_times[-1]` (here `getLastD _ 0`) reads an
existing element. -/
def RateMeter.remove_past_items (m : RateMeter) : RateMeter :=
  let first_time_value := m.times.getLastD 0 - m.interval
  let first_time_index := bisect_left m.times first_time_value
  let first_time_index' : ℤ :=
    if m.times.count first_time_value = 0 then (first_time_index : ℤ) - 1
    else first_time_index
  { m with times := m.times.drop first_time_index'.toNat,
           iters := m.iters.drop first_time_index'.toNat }

/-- Embeds `RateMeter.update(iter_num)`: default `iter_num` is the previous value
plus 1 (or 0 when empty); appends `(now, iter_num)` and trims. -/
def RateMeter.update (m : RateMeter) (now : ℚ) (iter_num : Option ℚ) :
    RateMeter :=
  let iter_val := match iter_num with
    | some v => v
    | none => if 0 < m.iters.length then m.iters.getLastD 0 + 1 else 0
  RateMeter.remove_past_items
    { m with times := m.times ++ [now], iters := m.iters ++ [iter_val] }

/-- Embeds `RateMeter.rate()`: 0 with at most one sample, else the value span over
the time span, guarding a zero time span.  The method only reads the state,
so the returned state is the receiver. -/
def RateMeter.rate (m : RateMeter) : ℚ × RateMeter :=
  if m.times.length ≤ 1 then (0, m)
  else
    let value_diff := m.iters.getLastD 0 - m.iters.headD 0
    let time_diff := m.times.getLastD 0 - m.times.headD 0
    (if time_diff = 0 then 0 else value_diff / time_diff, m)

/-- In a `≤`-sorted list, `getD` at index 0 default is monotone below the
length. -/
theorem sorted_getD_mono (a : List ℚ) (hs : List.Sorted (· ≤ ·) a)
    {i j : ℕ} (hij : i ≤ j) (hj : j < a.length) :
    a.getD i 0 ≤ a.getD j 0 := by
  rcases eq_or_lt_of_le hij with rfl | h
  · exact le_refl _
  · have hi : i < a.length := lt_trans h hj
    have := List.pairwise_iff_getElem.mp hs i j hi hj h
    rw [List.getD_eq_getElem?_getD, List.getD_eq_getElem?_getD,
      List.getElem?_eq_getElem hi, List.getElem?_eq_getElem hj]
    simpa using this

/-- Invariant of the binary-search loop: the result separates the elements
strictly below `x` from the rest. -/
theorem bisectLeftAux_spec (a : List ℚ) (x : ℚ)
    (hs : List.Sorted (· ≤ ·) a) :
    ∀ (fuel lo hi : ℕ), hi ≤ a.length → lo ≤ hi → hi - lo ≤ fuel →
      (∀ j, j < lo → a.getD j 0 < x) →
      (∀ j, hi ≤ j → j < a.length → ¬ a.getD j 0 < x) →
      bisectLeftAux a x fuel lo hi ≤ a.length ∧
      (∀ j, j < bisectLeftAux a x fuel lo hi → a.getD j 0 < x) ∧
      (∀ j, bisectLeftAux a x fuel lo hi ≤ j → j < a.length →
        ¬ a.getD j 0 < x) := by
  intro fuel
  induction fuel with
  | zero =>
    intro lo hi hhi hlo hfuel hbelow habove
    have : lo = hi := by omega
    subst this
    exact ⟨le_trans hlo hhi, fun j hj => hbelow j hj,
      fun j hj hj' => habove j hj hj'⟩
  | succ fuel ih =>
    intro lo hi hhi hlo hfuel hbelow habove
    by_cases hlt : lo < hi
    · simp only [bisectLeftAux, if_pos hlt]
      by_cases hmid : a.getD ((lo + hi) / 2) 0 < x
      · rw [if_pos hmid]
        apply ih ((lo + hi) / 2 + 1) hi hhi (by omega) (by omega)
        · intro j hj
          rcases lt_or_le j lo with hjlo | hjlo
          · exact hbelow j hjlo
          · exact lt_of_le_of_lt
              (sorted_getD_mono a hs (by omega) (by omega)) hmid
        · exact habove
      · rw [if_neg hmid]
        apply ih lo ((lo + hi) / 2) (by omega) (by omega) (by omega) hbelow
        intro j hj hj'
        intro hcon
        exact hmid (lt_of_le_of_lt (sorted_getD_mono a hs hj hj') hcon)
    · simp only [bisectLeftAux, if_neg hlt]
      have : lo = hi := by omega
      subst this
      exact ⟨le_trans hlo hhi, fun j hj => hbelow j hj,
        fun j hj hj' => habove j hj hj'⟩

/-- Specification of `bisect_left` on a sorted list. -/
theorem bisect_left_spec (a : List ℚ) (x : ℚ)
    (hs : List.Sorted (· ≤ ·) a) :
    bisect_left a x ≤ a.length ∧
    (∀ j, j < bisect_left a x → a.getD j 0 < x) ∧
    (∀ j, bisect_left a x ≤ j → j < a.length → ¬ a.getD j 0 < x) :=
  bisectLeftAux_spec a x hs a.length 0 a.length (le_refl _) (Nat.zero_le _)
    (by omega) (fun j hj => absurd hj (Nat.not_lt_zero j))
    (fun j hj hj' => absurd hj' (Nat.not_lt.mpr hj))

/-- The head of a dropped list is `getD` at the drop index. -/
theorem headD_drop (l : List ℚ) (k : ℕ) (d : ℚ) :
    (l.drop k).headD d = l.getD k d := by
  induction l generalizing k with
  | nil => cases k <;> rfl
  | cons a tl ih =>
    cases k with
    | zero => rfl
    | succ k => simpa using ih k

/-- Dropping strictly fewer elements than the length keeps the last one. -/
theorem getLastD_drop (l : List ℚ) (k : ℕ) (h : k < l.length) (d : ℚ) :
    (l.drop k).getLastD d = l.getLastD d := by
  induction l generalizing k with
  | nil => simp at h
  | cons a tl ih =>
    cases k with
    | zero => rfl
    | succ k =>
      have hk : k < tl.length := by simpa using h
      have htl : tl ≠ [] := by
        intro hnil
        rw [hnil] at hk
        simp at hk
      rw [List.drop_succ_cons, ih k hk, List.getLastD_cons,
        List.getLastD_eq_getLast?, List.getLastD_eq_getLast?]
      cases hlast : tl.getLast? with
      | none => exact absurd (List.getLast?_eq_none_iff.mp hlast) htl
      | some v => rfl

/-- Last element of a list with one appended element. -/
theorem getLastD_concat (l : List ℚ) (a d : ℚ) :
    (l ++ [a]).getLastD d = a := by
  rw [List.getLastD_eq_getLast?, List.getLast?_concat]
  rfl

/-- The number of elements popped by `remove_past_items` for stored times
`a` and cutoff `x`. -/
def trimIndex (a : List ℚ) (x : ℚ) : ℕ :=
  (if a.count x = 0 then (bisect_left a x : ℤ) - 1
   else (bisect_left a x : ℤ)).toNat

/-- The method `remove_past_items` drops `trimIndex` elements from both deques. -/
theorem remove_past_items_eq (m : RateMeter) :
    m.remove_past_items =
      { m with
        times := m.times.drop (trimIndex m.times (m.times.getLastD 0 - m.interval)),
        iters := m.iters.drop (trimIndex m.times (m.times.getLastD 0 - m.interval)) } :=
  rfl

/-- On a sorted nonempty list, the trim index stays inside the list, pops
only elements strictly below the cutoff, and lands on the exact-match
element when one exists, else (when some element is at or below the
cutoff) on an element strictly below it. -/
theorem trimIndex_spec (a : List ℚ) (x : ℚ)
    (hs : List.Sorted (· ≤ ·) a) (hne : a ≠ []) :
    trimIndex a x < a.length ∧
    (∀ j, j < trimIndex a x → a.getD j 0 < x) ∧
    (x ∈ a → a.getD (trimIndex a x) 0 = x) ∧
    ((∃ u ∈ a, u ≤ x) → x ∉ a → a.getD (trimIndex a x) 0 < x) := by
  obtain ⟨hlen, hbelow, habove⟩ := bisect_left_spec a x hs
  have hpos : 0 < a.length := List.length_pos.mpr hne
  by_cases hc : a.count x = 0
  · have hxnot : x ∉ a := by rwa [List.count_eq_zero] at hc
    have hk : trimIndex a x = ((bisect_left a x : ℤ) - 1).toNat := by
      rw [trimIndex, if_pos hc]
    refine ⟨by omega, ?_, ?_, ?_⟩
    · intro j hj
      exact hbelow j (by omega)
    · intro hmem
      exact absurd hmem hxnot
    · rintro ⟨u, humem, hule⟩ -
      have hult : u < x := lt_of_le_of_ne hule (fun h => hxnot (h ▸ humem))
      obtain ⟨iu, hiu, hgu⟩ := List.mem_iff_getElem.mp humem
      have hgu' : a.getD iu 0 < x := by
        rw [List.getD_eq_getElem?_getD, List.getElem?_eq_getElem hiu]
        simpa [hgu] using hult
      have hiu_lt : iu < bisect_left a x := by
        by_contra hcon
        exact habove iu (by omega) hiu hgu'
      have hbl : 1 ≤ bisect_left a x := by omega
      refine hbelow (trimIndex a x) (by omega)
  · have hxmem : x ∈ a := by
      by_contra hcon
      exact hc (List.count_eq_zero.mpr hcon)
    have hk : trimIndex a x = bisect_left a x := by
      rw [trimIndex, if_neg hc]
      exact Int.toNat_ofNat _
    obtain ⟨i, hi, hgi⟩ := List.mem_iff_getElem.mp hxmem
    have hgi' : a.getD i 0 = x := by
      rw [List.getD_eq_getElem?_getD, List.getElem?_eq_getElem hi, hgi]
      rfl
    have hble : bisect_left a x ≤ i := by
      by_contra hcon
      have := hbelow i (by omega)
      rw [hgi'] at this
      exact lt_irrefl x this
    have hklen : trimIndex a x < a.length := by omega
    refine ⟨hklen, ?_, ?_, ?_⟩
    · intro j hj
      exact hbelow j (by omega)
    · intro _
      have h1 : ¬ a.getD (trimIndex a x) 0 < x :=
        habove _ (by omega) hklen
      have h2 : a.getD (trimIndex a x) 0 ≤ x := by
        calc a.getD (trimIndex a x) 0 ≤ a.getD i 0 :=
              sorted_getD_mono a hs (by omega) hi
          _ = x := hgi'
      exact le_antisymm h2 (not_lt.mp h1)
    · intro _ hcon
      exact absurd hxmem hcon

/-- Appending an upper bound preserves sortedness. -/
theorem sorted_concat (l : List ℚ) (a : ℚ) (hs : List.Sorted (· ≤ ·) l)
    (hb : ∀ u ∈ l, u ≤ a) : List.Sorted (· ≤ ·) (l ++ [a]) := by
  rw [List.Sorted, List.pairwise_append]
  refine ⟨hs, List.pairwise_singleton _ _, fun u hu b hb' => ?_⟩
  rw [List.mem_singleton] at hb'
  subst hb'
  exact hb u hu

/-- The method `update` is `remove_past_items` applied after appending `(now, v)` for
the appropriate `v`. -/
theorem update_eq (m : RateMeter) (now : ℚ) (iter_num : Option ℚ) :
    ∃ v, m.update now iter_num =
      { m with
        times := (m.times ++ [now]).drop
          (trimIndex (m.times ++ [now])
            ((m.times ++ [now]).getLastD 0 - m.interval)),
        iters := (m.iters ++ [v]).drop
          (trimIndex (m.times ++ [now])
            ((m.times ++ [now]).getLastD 0 - m.interval)) } :=
  ⟨_, rfl⟩

/-- C10: `update` never removes the just-appended sample: afterwards the
deques are nonempty, the last stored time is the update time, and the two
deques have equal length. -/
theorem update_keeps_newest (m : RateMeter) (now : ℚ) (iter_num : Option ℚ)
    (hs : List.Sorted (· ≤ ·) m.times) (hb : ∀ u ∈ m.times, u ≤ now)
    (hlen : m.times.length = m.iters.length) :
    (m.update now iter_num).times ≠ [] ∧
    (m.update now iter_num).times.getLastD 0 = now ∧
    (m.update now iter_num).times.length =
      (m.update now iter_num).iters.length := by
  have hpre_s : List.Sorted (· ≤ ·) (m.times ++ [now]) :=
    sorted_concat _ _ hs hb
  have hpre_ne : m.times ++ [now] ≠ [] := by simp
  have hlast : (m.times ++ [now]).getLastD 0 = now := getLastD_concat _ _ _
  obtain ⟨hklen, -, -, -⟩ :=
    trimIndex_spec (m.times ++ [now]) (now - m.interval) hpre_s hpre_ne
  obtain ⟨v, hv⟩ := update_eq m now iter_num
  rw [hlast] at hv
  rw [hv]
  simp only
  refine ⟨?_, ?_, ?_⟩
  · intro hnil
    have hlen0 := congrArg List.length hnil
    rw [List.length_drop] at hlen0
    simp only [List.length_nil] at hlen0
    omega
  · rw [getLastD_drop _ _ hklen, hlast]
  · simp [List.length_drop, List.length_append, hlen]

/-- Witness for `update_keeps_newest` on a concrete meter. -/
theorem update_keeps_newest_witness :
    ((⟨[0, 1/2], [0, 1], 1⟩ : RateMeter).update (3/2) (some 2)).times ≠ [] ∧
    ((⟨[0, 1/2], [0, 1], 1⟩ : RateMeter).update (3/2) (some 2)).times.getLastD 0
      = 3/2 ∧
    ((⟨[0, 1/2], [0, 1], 1⟩ : RateMeter).update (3/2) (some 2)).times.length =
      ((⟨[0, 1/2], [0, 1], 1⟩ : RateMeter).update (3/2) (some 2)).iters.length :=
  update_keeps_newest ⟨[0, 1/2], [0, 1], 1⟩ (3/2) (some 2)
    (by norm_num [List.sorted_cons])
    (by
      intro u hu
      rcases List.mem_cons.mp hu with rfl | hu
      · norm_num
      · rw [List.mem_singleton] at hu
        subst hu
        norm_num)
    rfl

/-- C4: when the pre-trim sequence holds a timestamp at or before the
cutoff `now - window`, the trim removes only entries strictly older than
the cutoff, retains one entry at or before the cutoff (the exact match if
it exists, else one strictly before it), and therefore the retained span
is at least the window. -/
theorem update_trim_conservative (m : RateMeter) (now : ℚ)
    (iter_num : Option ℚ)
    (hs : List.Sorted (· ≤ ·) m.times) (hb : ∀ u ∈ m.times, u ≤ now)
    (hold : ∃ u ∈ m.times ++ [now], u ≤ now - m.interval) :
    ∃ k, (m.update now iter_num).times = (m.times ++ [now]).drop k ∧
      k < (m.times ++ [now]).length ∧
      (∀ u ∈ (m.times ++ [now]).take k, u < now - m.interval) ∧
      (m.update now iter_num).times.headD 0 ≤ now - m.interval ∧
      ((now - m.interval) ∈ m.times ++ [now] →
        (m.update now iter_num).times.headD 0 = now - m.interval) ∧
      ((now - m.interval) ∉ m.times ++ [now] →
        (m.update now iter_num).times.headD 0 < now - m.interval) ∧
      m.interval ≤ (m.update now iter_num).times.getLastD 0 -
        (m.update now iter_num).times.headD 0 := by
  have hpre_s : List.Sorted (· ≤ ·) (m.times ++ [now]) :=
    sorted_concat _ _ hs hb
  have hpre_ne : m.times ++ [now] ≠ [] := by simp
  have hlast : (m.times ++ [now]).getLastD 0 = now := getLastD_concat _ _ _
  obtain ⟨hklen, hbelow, hexact, hinexact⟩ :=
    trimIndex_spec (m.times ++ [now]) (now - m.interval) hpre_s hpre_ne
  obtain ⟨v, hv⟩ := update_eq m now iter_num
  rw [hlast] at hv
  have htimes : (m.update now iter_num).times =
      (m.times ++ [now]).drop (trimIndex (m.times ++ [now]) (now - m.interval)) := by
    rw [hv]
  have hhead : (m.update now iter_num).times.headD 0 =
      (m.times ++ [now]).getD (trimIndex (m.times ++ [now]) (now - m.interval)) 0 := by
    rw [htimes, headD_drop]
  have hlastkeep : (m.update now iter_num).times.getLastD 0 = now := by
    rw [htimes, getLastD_drop _ _ hklen, hlast]
  have hheadle : (m.update now iter_num).times.headD 0 ≤ now - m.interval := by
    rw [hhead]
    by_cases hmem : (now - m.interval) ∈ m.times ++ [now]
    · exact le_of_eq (hexact hmem)
    · exact le_of_lt (hinexact hold hmem)
  refine ⟨trimIndex (m.times ++ [now]) (now - m.interval),
    htimes, hklen, ?_, hheadle, ?_, ?_, ?_⟩
  · intro u hu
    obtain ⟨j, hj, hgj⟩ := List.mem_iff_getElem.mp hu
    have hjk : j < trimIndex (m.times ++ [now]) (now - m.interval) := by
      have := hj
      rw [List.length_take] at this
      omega
    have hjlen : j < (m.times ++ [now]).length := by
      have := hj
      rw [List.length_take] at this
      omega
    have hgj' : (m.times ++ [now]).getD j 0 = u := by
      rw [List.getD_eq_getElem?_getD, List.getElem?_eq_getElem hjlen]
      rw [← hgj, List.getElem_take]
      rfl
    rw [← hgj']
    exact hbelow j hjk
  · intro hmem
    rw [hhead]
    exact hexact hmem
  · intro hmem
    rw [hhead]
    exact hinexact hold hmem
  · rw [hlastkeep]
    linarith [hheadle]

/-- Witness for `update_trim_conservative` on a concrete meter: window 1,
stored times `[0, 1/2]`, update at `3/2`; the entry at the cutoff `1/2` is
retained and `0` is removed. -/
theorem update_trim_conservative_witness :
    ∃ k, ((⟨[0, 1/2], [0, 1], 1⟩ : RateMeter).update (3/2) (some 2)).times =
        (([0, 1/2] : List ℚ) ++ [3/2]).drop k ∧
      k < (([0, 1/2] : List ℚ) ++ [3/2]).length ∧
      (∀ u ∈ (([0, 1/2] : List ℚ) ++ [3/2]).take k, u < 3/2 - 1) ∧
      ((⟨[0, 1/2], [0, 1], 1⟩ : RateMeter).update (3/2) (some 2)).times.headD 0
        ≤ 3/2 - 1 ∧
      ((3/2 - 1 : ℚ) ∈ ([0, 1/2] : List ℚ) ++ [3/2] →
        ((⟨[0, 1/2], [0, 1], 1⟩ : RateMeter).update (3/2) (some 2)).times.headD 0
          = 3/2 - 1) ∧
      ((3/2 - 1 : ℚ) ∉ ([0, 1/2] : List ℚ) ++ [3/2] →
        ((⟨[0, 1/2], [0, 1], 1⟩ : RateMeter).update (3/2) (some 2)).times.headD 0
          < 3/2 - 1) ∧
      (1 : ℚ) ≤ ((⟨[0, 1/2], [0, 1], 1⟩ : RateMeter).update (3/2) (some 2)).times.getLastD 0 -
        ((⟨[0, 1/2], [0, 1], 1⟩ : RateMeter).update (3/2) (some 2)).times.headD 0 :=
  update_trim_conservative ⟨[0, 1/2], [0, 1], 1⟩ (3/2) (some 2)
    (by norm_num [List.sorted_cons])
    (by
      intro u hu
      rcases List.mem_cons.mp hu with rfl | hu
      · norm_num
      · rw [List.mem_singleton] at hu
        subst hu
        norm_num)
    ⟨1/2, by norm_num, by norm_num⟩

/-- C5: `rate()` returns 0 with fewer than 2 samples, else the value span
divided by the time span, returning 0 when the time span is exactly 0, and
never modifies the meter's state. -/
theorem rate_spec (m : RateMeter) :
    (m.rate).2 = m ∧
    (m.times.length ≤ 1 → (m.rate).1 = 0) ∧
    (1 < m.times.length →
      (m.times.getLastD 0 - m.times.headD 0 = 0 → (m.rate).1 = 0) ∧
      (m.times.getLastD 0 - m.times.headD 0 ≠ 0 →
        (m.rate).1 = (m.iters.getLastD 0 - m.iters.headD 0) /
          (m.times.getLastD 0 - m.times.headD 0))) := by
  refine ⟨?_, ?_, ?_⟩
  · by_cases h1 : m.times.length ≤ 1 <;> simp [RateMeter.rate, h1]
  · intro h1
    simp [RateMeter.rate, h1]
  · intro h1
    have h2 : ¬ m.times.length ≤ 1 := by omega
    refine ⟨fun htd => ?_, fun htd => ?_⟩
    · simp only [List.getLastD_eq_getLast?, List.headD_eq_head?] at htd
      simp [RateMeter.rate, h2, htd]
    · simp only [List.getLastD_eq_getLast?, List.headD_eq_head?] at htd
      simp [RateMeter.rate, h2, htd]

end Pythrottle
